import Mathlib

/-!
Verification development for the `http-lambda-invoker` Go program.

The program is a protocol-translation shim: it turns an inbound HTTP request
into an AWS API-Gateway proxy event, invokes a Lambda function through a
gateway client, and turns the returned proxy result back into an HTTP
response.  The definitions below are a shallow embedding of the functions in
`http-lambda-invoker.go` together with the parts of the Go standard library
(`net/http`, `net/textproto`, `regexp`) whose behaviour those functions
depend on.

Modelling conventions:
- Go `map[string]string` and `map[string][]string` values are represented as
  association lists; per-key operations are order-independent, matching the
  unordered Go maps.
- Strings are processed as `List Char` where recursion is needed; `String`
  wrappers keep the source signatures.
- The fallible collaborators (`json.Marshal`, `Lambda.Invoke`,
  `json.Unmarshal`, reading the request body) are opaque in the source, so
  `invokeLambda` is parametrised over them as `Except`-valued functions.
- Go's `regexp` package is modelled for the fragment of patterns the
  program can produce from a route template built from ordinary characters:
  literal characters, `.` (any character except newline), and named capture
  groups `(?P<name>[^/]+)`.  Matching follows Go's documented semantics:
  unanchored leftmost match with backtracking (Perl-style) priority.
-/

namespace HttpLambdaInvoker

/-! ## Multi-value map normalisation (`multiValueMapToSingleValueMap`) -/

/-- Shallow embedding of the Go function `multiValueMapToSingleValueMap`:
for each key the value becomes the LAST element of the value slice
(`v[len(v)-1]`), or the empty string when the slice is empty. -/
def multiValueMapToSingleValueMap (m : List (String × List String)) :
    List (String × String) :=
  m.map (fun kv => (kv.1, kv.2.getLast?.getD ""))


/-! ## Regular-expression fragment

`pathPatternToPathRegex` builds a Go regexp whose syntax-tree, for templates
made of ordinary characters, consists of literal characters, `.`, and the
named capture groups `(?P<name>[^/]+)` substituted for `:name` placeholders.
A compiled pattern is a list of such elements. -/

/-- One element of a compiled pattern: a literal character, the
any-character metacharacter `.` (which in Go matches every character except
newline), or a named capture group `(?P<name>[^/]+)` (one or more
non-slash characters, greedy). -/
inductive RElem where
  | lit (c : Char)
  | dot
  | group (name : String)
deriving DecidableEq, Repr

/-- Result of matching a pattern at a fixed start position: the named
captures in group order, and the input remaining after the match. -/
abbrev MatchRes := List (String × String) × List Char

mutual

/-- Match a compiled pattern at the start of the input, Go/Perl style:
alternatives are tried in priority order, a group `[^/]+` being greedy.
Returns the named captures and the remaining input of the first
(highest-priority) successful parse. -/
def matchFrom : List RElem → List Char → Option MatchRes
  | [], s => some ([], s)
  | .lit c :: pat, s =>
    match s with
    | [] => none
    | x :: s' => if x = c then matchFrom pat s' else none
  | .dot :: pat, s =>
    match s with
    | [] => none
    | x :: s' => if x = '\n' then none else matchFrom pat s'
  | .group n :: pat, s => matchGroup (matchFrom pat) n [] s

/-- Greedy matcher for one `[^/]+` group: `acc` holds the (reversed)
characters captured so far; extending the capture is preferred, and the
continuation `cont` is tried on the rest only when extending fails.  The
capture must be non-empty. -/
def matchGroup (cont : List Char → Option MatchRes) (n : String)
    (acc : List Char) : List Char → Option MatchRes
  | [] =>
    if acc.isEmpty then none
    else (cont []).map (fun r => ((n, String.mk acc.reverse) :: r.1, r.2))
  | x :: s =>
    if x = '/' then
      if acc.isEmpty then none
      else (cont (x :: s)).map (fun r => ((n, String.mk acc.reverse) :: r.1, r.2))
    else
      match matchGroup cont n (x :: acc) s with
      | some r => some r
      | none =>
        if acc.isEmpty then none
        else (cont (x :: s)).map (fun r => ((n, String.mk acc.reverse) :: r.1, r.2))

end

/-- Go's `Regexp.FindStringSubmatch`: unanchored search returning the
captures of the leftmost match, or `none` when no position matches. -/
def findFrom (pat : List RElem) : List Char → Option (List (String × String))
  | [] =>
    match matchFrom pat [] with
    | some r => some r.1
    | none => none
  | x :: s' =>
    match matchFrom pat (x :: s') with
    | some r => some r.1
    | none => findFrom pat s'

/-! ## Path pattern compiler (`pathPatternToPathRegex`) -/

/-- ASCII word character: the characters Go's `regexp` accepts in a
`(?P<name>...)` capture-group name. -/
def isWordChar (c : Char) : Bool :=
  c.isAlpha || c.isDigit || c = '_'

/-- Characters that are metacharacters of Go regexp syntax (outside
character classes) other than `.`: templates containing them are outside
the modelled regexp fragment.  `.` is modelled (as `RElem.dot`). -/
def isRegexSpecial (c : Char) : Bool :=
  c = '\\' || c = '(' || c = ')' || c = '[' || c = ']' || c = '{' ||
  c = '}' || c = '*' || c = '+' || c = '?' || c = '^' || c = '$' || c = '|'

/-- Scanner for the composition performed by the Go function
`pathPatternToPathRegex`: every leftmost match of `:([^/]+)` in the
template is replaced by `(?P<$1>[^/]+)` and the result is handed to
`regexp.Compile`.  The first argument says whether we are inside a
placeholder name (after a `:` with at least one non-`/` character pending),
`acc` holds the reversed name characters read so far.  A name made of
non-word characters makes `regexp.Compile` reject the produced
`(?P<name>` group, which the scanner reports as an error. -/
def compileAux : Bool → List Char → List Char → Except String (List RElem)
  | false, _, [] => .ok []
  | false, _, c :: rest =>
    if c = ':' then compileAux true [] rest
    else if c = '.' then (compileAux false [] rest).map (fun p => .dot :: p)
    else if isRegexSpecial c then .error "unmodelled regexp metacharacter"
    else (compileAux false [] rest).map (fun p => .lit c :: p)
  | true, acc, [] =>
    if acc.isEmpty then .ok [.lit ':']
    else if acc.all isWordChar then .ok [.group (String.mk acc.reverse)]
    else .error "error parsing regexp: invalid named capture"
  | true, acc, c :: rest =>
    if c = '/' then
      if acc.isEmpty then
        (compileAux false [] rest).map (fun p => .lit ':' :: .lit '/' :: p)
      else if acc.all isWordChar then
        (compileAux false [] rest).map
          (fun p => .group (String.mk acc.reverse) :: .lit '/' :: p)
      else .error "error parsing regexp: invalid named capture"
    else compileAux true (c :: acc) rest

/-- Names of the capture groups of a compiled pattern, in order
(Go's `SubexpNames` without the leading entry for the whole match). -/
def groupNames : List RElem → List String
  | [] => []
  | .group n :: pat => n :: groupNames pat
  | _ :: pat => groupNames pat

/-- Pairwise distinctness of group names: Go's `regexp.Compile` rejects a
pattern with a duplicate capture-group name. -/
def distinctNames : List String → Bool
  | [] => true
  | n :: t => !(t.contains n) && distinctNames t

/-- Shallow embedding of the Go function `pathPatternToPathRegex`:
replace each `:name` token of the route template by a named capture group
`(?P<name>[^/]+)` — every other character is inserted into the regexp
source verbatim, with no escaping — and compile the result.  Compilation
fails on an invalid or duplicate capture-group name. -/
def pathPatternToPathRegex (pattern : String) : Except String (List RElem) :=
  match compileAux false [] pattern.data with
  | .error e => .error e
  | .ok p =>
    if distinctNames (groupNames p) then .ok p
    else .error "error parsing regexp: duplicate capture group name"

/-- Route templates inside the modelled regexp fragment: no regexp
metacharacter other than `.` occurs.  On this fragment
`pathPatternToPathRegex` succeeds and fails exactly as the Go original. -/
def modelledTemplate (pattern : String) : Bool :=
  pattern.data.all (fun c => !(isRegexSpecial c))

/-! ## Path parameter extraction (`extractPathParameters`) -/

/-- Go map assignment `m[k] = v` on an association list: overwrite the
binding when the key is present, append it otherwise. -/
def insertStr : List (String × String) → String → String → List (String × String)
  | [], k, v => [(k, v)]
  | (k', v') :: t, k, v =>
    if k' = k then (k, v) :: t else (k', v') :: insertStr t k v

/-- Shallow embedding of the Go function `extractPathParameters`: run
`FindStringSubmatch`; when there is no match the result is the empty map
(the loop breaks at once), otherwise each named group's capture is written
into the map, unnamed groups being skipped. -/
def extractPathParameters (path : List Char) (rePathPattern : List RElem) :
    List (String × String) :=
  match findFrom rePathPattern path with
  | none => []
  | some caps =>
    caps.foldl (fun m nv => if nv.1 = "" then m else insertStr m nv.1 nv.2) []

/-! ## Go `net/http` header and response-writer model

`http.Header` canonicalises every key with
`textproto.CanonicalMIMEHeaderKey`; `Add` appends a value under the
canonical key, `Set` replaces all values, `Del` removes the key.  The
response writer accepts header mutations until the status line is written;
the first `WriteHeader` wins and writing the body forces status 200 when no
status was written yet. -/

/-- Go `textproto.validHeaderFieldByte`: ASCII letters, digits and the
token punctuation characters. -/
def validHeaderFieldChar (c : Char) : Bool :=
  let n := c.toNat
  (65 ≤ n && n ≤ 90) || (97 ≤ n && n ≤ 122) || (48 ≤ n && n ≤ 57) ||
  n = 33 || n = 35 || n = 36 || n = 37 || n = 38 || n = 39 || n = 42 ||
  n = 43 || n = 45 || n = 46 || n = 94 || n = 95 || n = 96 || n = 124 ||
  n = 126

/-- ASCII upper-casing of a single character, as Go does byte-wise. -/
def toUpperAscii (c : Char) : Char :=
  if 97 ≤ c.toNat && c.toNat ≤ 122 then Char.ofNat (c.toNat - 32) else c

/-- ASCII lower-casing of a single character, as Go does byte-wise. -/
def toLowerAscii (c : Char) : Char :=
  if 65 ≤ c.toNat && c.toNat ≤ 90 then Char.ofNat (c.toNat + 32) else c

/-- Case mapping of `CanonicalMIMEHeaderKey`: upper-case the first
character and every character following a `-`, lower-case the rest. -/
def canonChars : Bool → List Char → List Char
  | _, [] => []
  | upper, c :: t =>
    let c' := if upper then toUpperAscii c else toLowerAscii c
    c' :: canonChars (c' = '-') t

/-- Go `textproto.CanonicalMIMEHeaderKey`: keys containing a character
that is not a valid header-field byte are returned unchanged, all other
keys get the canonical case mapping. -/
def canonicalMIMEHeaderKey (s : String) : String :=
  if s.data.all validHeaderFieldChar then String.mk (canonChars true s.data)
  else s

/-- The Go `http.Header` map: canonical key to ordered list of values. -/
abbrev Header := List (String × List String)

/-- Append a value to the entry of a key in an association list, adding the
entry at the end when the key is absent. -/
def appendAssoc : Header → String → String → Header
  | [], k, v => [(k, [v])]
  | (k', vs) :: t, k, v =>
    if k' = k then (k', vs ++ [v]) :: t else (k', vs) :: appendAssoc t k v

/-- Replace the entry of a key in an association list, adding it at the end
when the key is absent. -/
def setAssoc : Header → String → List String → Header
  | [], k, vs => [(k, vs)]
  | (k', vs') :: t, k, vs =>
    if k' = k then (k, vs) :: t else (k', vs') :: setAssoc t k vs

/-- Remove the entry of a key from an association list. -/
def delAssoc : Header → String → Header
  | [], _ => []
  | (k', vs') :: t, k =>
    if k' = k then delAssoc t k else (k', vs') :: delAssoc t k

/-- Go `Header.Add`: canonicalise the key and append the value. -/
def headerAdd (h : Header) (k v : String) : Header :=
  appendAssoc h (canonicalMIMEHeaderKey k) v

/-- Go `Header.Set`: canonicalise the key and replace the values. -/
def headerSet (h : Header) (k v : String) : Header :=
  setAssoc h (canonicalMIMEHeaderKey k) [v]

/-- Go `Header.Del`: canonicalise the key and remove the entry. -/
def headerDel (h : Header) (k : String) : Header :=
  delAssoc h (canonicalMIMEHeaderKey k)

/-- The values stored for a key, looked up as `Header.Values` does, under
the canonical key. -/
def headerValues (h : Header) (k : String) : Option (List String) :=
  h.lookup (canonicalMIMEHeaderKey k)

/-- One operation performed on the `http.ResponseWriter`. -/
inductive WriterOp where
  | addHeader (k v : String)
  | setHeader (k v : String)
  | delHeader (k : String)
  | writeStatus (code : Int)
  | writeBody (s : String)
deriving DecidableEq, Repr

/-- The observable state of the HTTP response being written. -/
structure ResponseState where
  headers : Header
  status : Option Int
  body : String
deriving DecidableEq, Repr

/-- Apply one writer operation: header mutations act on the header map,
the first `WriteHeader` fixes the status (later ones are ignored), and a
body write first forces status 200 when none was written. -/
def applyOp (st : ResponseState) : WriterOp → ResponseState
  | .addHeader k v => { st with headers := headerAdd st.headers k v }
  | .setHeader k v => { st with headers := headerSet st.headers k v }
  | .delHeader k => { st with headers := headerDel st.headers k }
  | .writeStatus c =>
    if st.status.isSome then st else { st with status := some c }
  | .writeBody s =>
    { st with
      status := if st.status.isSome then st.status else some 200,
      body := st.body ++ s }

/-- Replay a trace of writer operations from the initial empty response. -/
def runTrace (ops : List WriterOp) : ResponseState :=
  ops.foldl applyOp ⟨[], none, ""⟩

/-! ## The HTTP handler (`invokeLambda` and `handleError`) -/

/-- The invocation event, `events.APIGatewayProxyRequest` restricted to the
fields the program fills in. -/
structure APIGatewayProxyRequest where
  Body : String
  HTTPMethod : String
  Path : String
  MultiValueHeaders : List (String × List String)
  Headers : List (String × String)
  MultiValueQueryStringParameters : List (String × List String)
  QueryStringParameters : List (String × String)
  PathParameters : List (String × String)
deriving DecidableEq, Repr

/-- The invocation result, `events.APIGatewayProxyResponse` restricted to
the fields the program reads. -/
structure APIGatewayProxyResponse where
  Body : String
  Headers : List (String × String)
  StatusCode : Int
deriving DecidableEq, Repr

/-- The inbound HTTP request as the handler observes it: reading the body
(`io.ReadAll(r.Body)`) may fail, the rest is plain data. -/
structure HttpRequest where
  bodyResult : Except String String
  method : String
  path : String
  headers : List (String × List String)
  query : List (String × List String)

/-- Shallow embedding of the Go function `handleError`, which calls
`http.Error(w, fmt.Sprintf("Error: %v", err), http.StatusBadRequest)`:
`http.Error` deletes `Content-Length`, sets the plain-text content type and
the nosniff header, writes status 400 and prints the message followed by a
newline. -/
def handleError (msg : String) : List WriterOp :=
  [.delHeader "Content-Length",
   .setHeader "Content-Type" "text/plain; charset=utf-8",
   .setHeader "X-Content-Type-Options" "nosniff",
   .writeStatus 400,
   .writeBody ("Error: " ++ msg ++ "\n")]

/-- The event-construction step of `invokeLambda`: the
`events.APIGatewayProxyRequest` literal built from the request body, the
request line, the raw multi-value maps, their normalisations and the
extracted path parameters. -/
def buildEvent (body : String) (r : HttpRequest)
    (pathParameters : List (String × String)) : APIGatewayProxyRequest :=
  { Body := body
    HTTPMethod := r.method
    Path := r.path
    MultiValueHeaders := r.headers
    Headers := multiValueMapToSingleValueMap r.headers
    MultiValueQueryStringParameters := r.query
    QueryStringParameters := multiValueMapToSingleValueMap r.query
    PathParameters := pathParameters }

/-- The response-translation step of `invokeLambda` (lines 122-132): copy
every result header except the exact key `"content-length"` onto the
response with `Add`, then `Set` the CORS header, then write the status
code, then print the body. -/
def writeResponse (response : APIGatewayProxyResponse) : List WriterOp :=
  (response.Headers.foldr
    (fun kv ops =>
      if kv.1 = "content-length" then ops else .addHeader kv.1 kv.2 :: ops)
    []) ++
  [.setHeader "Access-Control-Allow-Origin" "*",
   .writeStatus response.StatusCode,
   .writeBody response.Body]

/-- The outcome of one request: the operations performed on the response
writer, and whether the Lambda client's `Invoke` was called. -/
structure InvokeOutcome where
  trace : List WriterOp
  invoked : Bool
deriving DecidableEq, Repr

/-- Shallow embedding of the Go method `invokeLambda`.  The fallible
collaborators — `json.Marshal` of the event, the gateway `Invoke`, and
`json.Unmarshal` of the result payload — are parameters, mirroring that the
source treats them as opaque operations returning `(value, err)`. -/
def invokeLambda
    (marshal : APIGatewayProxyRequest → Except String String)
    (invoke : String → Except String String)
    (unmarshal : String → Except String APIGatewayProxyResponse)
    (route : String) (r : HttpRequest) : InvokeOutcome :=
  match r.bodyResult with
  | .error e => ⟨handleError e, false⟩
  | .ok body =>
    match pathPatternToPathRegex route with
    | .error e => ⟨handleError e, false⟩
    | .ok rePathPattern =>
      let pathParameters := extractPathParameters r.path.data rePathPattern
      let request := buildEvent body r pathParameters
      match marshal request with
      | .error e => ⟨handleError e, false⟩
      | .ok payload =>
        match invoke payload with
        | .error e => ⟨handleError e, true⟩
        | .ok resultPayload =>
          match unmarshal resultPayload with
          | .error e => ⟨handleError e, true⟩
          | .ok response => ⟨writeResponse response, true⟩

/-! ## Auxiliary measures used by the proofs -/

/-- Number of literal `/` elements of a pattern. -/
def slashLits : List RElem → Nat
  | [] => 0
  | .lit c :: t => (if c = '/' then 1 else 0) + slashLits t
  | .dot :: t => slashLits t
  | .group _ :: t => slashLits t

/-- Number of `/` characters in the input. -/
def countSlash : List Char → Nat
  | [] => 0
  | c :: t => (if c = '/' then 1 else 0) + countSlash t


/-- ASCII lower-casing of a whole key, for stating case-insensitive
properties of header names. -/
def lowerKey (s : String) : String :=
  String.mk (s.data.map toLowerAscii)

/-- Whether a header map contains a key that equals `k` up to ASCII case. -/
def containsKeyCI (h : Header) (k : String) : Bool :=
  h.any (fun e => lowerKey e.1 = lowerKey k)

/-! ## Helper lemmas: header maps and traces -/

/-- Looking a key up in the normalised map yields the last value of the
original slice (or the empty-string default). -/
theorem lookup_multiValueMapToSingleValueMap
    (m : List (String × List String)) (k : String) (v : List String)
    (h : m.lookup k = some v) :
    (multiValueMapToSingleValueMap m).lookup k = some (v.getLast?.getD "") := by
  induction m with
  | nil => simp [List.lookup] at h
  | cons kv m ih =>
    simp only [List.lookup, multiValueMapToSingleValueMap, List.map] at h ⊢
    by_cases hk : (k == kv.1)
    · simp [hk] at h ⊢
      subst h
      rfl
    · simp [hk] at h ⊢
      exact ih h


theorem lookup_setAssoc_self (h : Header) (k : String) (vs : List String) :
    (setAssoc h k vs).lookup k = some vs := by
  induction h with
  | nil => simp [setAssoc, List.lookup]
  | cons kv t ih =>
    by_cases hk : kv.1 = k
    · simp [setAssoc, hk, List.lookup]
    · have hne : (k == kv.1) = false := beq_eq_false_iff_ne.mpr (Ne.symm hk)
      simpa [setAssoc, hk, List.lookup, hne] using ih

theorem headers_applyOp_writeStatus (st : ResponseState) (c : Int) :
    (applyOp st (.writeStatus c)).headers = st.headers := by
  simp only [applyOp]
  split <;> rfl

theorem headers_applyOp_writeBody (st : ResponseState) (s : String) :
    (applyOp st (.writeBody s)).headers = st.headers := rfl

theorem runTrace_append (l₁ l₂ : List WriterOp) :
    runTrace (l₁ ++ l₂) = l₂.foldl applyOp (runTrace l₁) := by
  simp [runTrace, List.foldl_append]

/-! ## Helper lemmas: the matcher -/

theorem matchFrom_nil (s : List Char) : matchFrom [] s = some ([], s) := rfl

theorem matchFrom_lits (p : List Char) (pat : List RElem) (s : List Char) :
    matchFrom (p.map RElem.lit ++ pat) (p ++ s) = matchFrom pat s := by
  induction p with
  | nil => rfl
  | cons c p ih => simpa [matchFrom] using ih

/-- Greedy capture: when the input starts with a non-empty run `v` of
non-slash characters followed by `t` (the end of the input or a slash), and
the continuation succeeds on `t`, the group captures exactly `acc.reverse
++ v` and the continuation's result follows. -/
theorem matchGroup_run (cont : List Char → Option MatchRes) (n : String)
    (v : List Char) (t : List Char) (r : MatchRes)
    (hv : ∀ ch ∈ v, ch ≠ '/')
    (ht : t = [] ∨ ∃ s', t = '/' :: s')
    (hc : cont t = some r) :
    ∀ acc : List Char, acc ≠ [] ∨ v ≠ [] →
      matchGroup cont n acc (v ++ t) =
        some ((n, String.mk (acc.reverse ++ v)) :: r.1, r.2) := by
  induction v with
  | nil =>
    intro acc hne
    have hacc : acc ≠ [] := by
      rcases hne with h | h
      · exact h
      · exact absurd rfl h
    rcases ht with rfl | ⟨s', rfl⟩
    · simp [matchGroup, List.isEmpty_iff, hacc, hc]
    · simp [matchGroup, List.isEmpty_iff, hacc, hc]
  | cons w v ih =>
    intro acc _
    have hw : w ≠ '/' := hv w (by simp)
    have hrec := ih (fun ch hch => hv ch (by simp [hch])) (w :: acc)
      (Or.inl (by simp))
    simp only [List.cons_append, matchGroup, if_neg hw, List.append_eq]
    rw [hrec]
    simp [List.append_assoc]

/-- A named group followed by a slash (or the end of the pattern's input):
it captures the full non-slash run. -/
theorem matchFrom_group (n : String) (pat : List RElem) (v t : List Char)
    (r : MatchRes)
    (hv : ∀ ch ∈ v, ch ≠ '/') (hvne : v ≠ [])
    (ht : t = [] ∨ ∃ s', t = '/' :: s')
    (hc : matchFrom pat t = some r) :
    matchFrom (.group n :: pat) (v ++ t) =
      some ((n, String.mk v) :: r.1, r.2) := by
  have := matchGroup_run (matchFrom pat) n v t r hv ht hc [] (Or.inr hvne)
  simpa [matchFrom] using this

/-! ## Helper lemmas: counting slashes

A successful match must consume one input slash for every literal slash of
the pattern: groups capture only non-slash characters and `.` and other
literals consume at most one character each. -/


theorem countSlash_le_cons (c : Char) (s : List Char) :
    countSlash s ≤ countSlash (c :: s) := by
  simp only [countSlash]
  omega

theorem matchGroup_slash (cont : List Char → Option MatchRes) (n : String)
    (k : Nat) (hc : ∀ t r', cont t = some r' → k ≤ countSlash t) :
    ∀ s acc r, matchGroup cont n acc s = some r → k ≤ countSlash s := by
  intro s
  induction s with
  | nil =>
    intro acc r h
    simp only [matchGroup] at h
    by_cases hacc : acc.isEmpty
    · rw [if_pos hacc] at h
      cases h
    · rw [if_neg hacc] at h
      cases hcont : cont [] with
      | none => rw [hcont] at h; simp at h
      | some r' => exact hc [] r' hcont
  | cons x s ih =>
    intro acc r h
    by_cases hx : x = '/'
    · subst hx
      simp only [matchGroup, if_pos rfl] at h
      by_cases hacc : acc.isEmpty
      · rw [if_pos hacc] at h
        cases h
      · rw [if_neg hacc] at h
        cases hcont : cont ('/' :: s) with
        | none => rw [hcont] at h; simp at h
        | some r' => exact hc _ r' hcont
    · simp only [matchGroup, if_neg hx] at h
      cases hm : matchGroup cont n (x :: acc) s with
      | some r'' =>
        exact le_trans (ih (x :: acc) r'' hm) (countSlash_le_cons x s)
      | none =>
        rw [hm] at h
        by_cases hacc : acc.isEmpty
        · rw [if_pos hacc] at h
          cases h
        · rw [if_neg hacc] at h
          cases hcont : cont (x :: s) with
          | none => rw [hcont] at h; simp at h
          | some r' => exact hc _ r' hcont

theorem matchFrom_slash :
    ∀ (pat : List RElem) (s : List Char) (r : MatchRes),
      matchFrom pat s = some r → slashLits pat ≤ countSlash s := by
  intro pat
  induction pat with
  | nil => intro s r _; simp [slashLits]
  | cons e pat ih =>
    intro s r h
    cases e with
    | lit c =>
      cases s with
      | nil => simp [matchFrom] at h
      | cons x s' =>
        by_cases hx : x = c
        · simp only [matchFrom, if_pos hx] at h
          subst hx
          simp only [slashLits, countSlash]
          exact Nat.add_le_add_left (ih s' r h) _
        · simp [matchFrom, hx] at h
    | dot =>
      cases s with
      | nil => simp [matchFrom] at h
      | cons x s' =>
        by_cases hx : x = '\n'
        · simp [matchFrom, hx] at h
        · simp only [matchFrom, if_neg hx] at h
          calc slashLits (RElem.dot :: pat) = slashLits pat := rfl
            _ ≤ countSlash s' := ih s' r h
            _ ≤ countSlash (x :: s') := countSlash_le_cons x s'
    | group n =>
      simp only [matchFrom] at h
      exact matchGroup_slash (matchFrom pat) n (slashLits pat)
        (fun t r' ht => ih t r' ht) s [] r h

theorem findFrom_slash (pat : List RElem) :
    ∀ (s : List Char) (caps : List (String × String)),
      findFrom pat s = some caps → slashLits pat ≤ countSlash s := by
  intro s
  induction s with
  | nil =>
    intro caps h
    cases hm : matchFrom pat [] with
    | some r => exact matchFrom_slash pat [] r hm
    | none => simp [findFrom, hm] at h
  | cons x s' ih =>
    intro caps h
    cases hm : matchFrom pat (x :: s') with
    | some r => exact matchFrom_slash pat (x :: s') r hm
    | none =>
      simp only [findFrom, hm] at h
      exact le_trans (ih caps h) (countSlash_le_cons x s')

/-! ## Helper lemmas: capture names come from the pattern's groups -/

theorem matchGroup_caps (cont : List Char → Option MatchRes) (n : String)
    (P : String → Prop)
    (hc : ∀ t r', cont t = some r' → ∀ nv ∈ r'.1, P nv.1) :
    ∀ s acc r, matchGroup cont n acc s = some r →
      ∀ nv ∈ r.1, nv.1 = n ∨ P nv.1 := by
  intro s
  induction s with
  | nil =>
    intro acc r h nv hnv
    simp only [matchGroup] at h
    by_cases hacc : acc.isEmpty
    · rw [if_pos hacc] at h
      cases h
    · rw [if_neg hacc] at h
      cases hcont : cont [] with
      | none => rw [hcont] at h; simp at h
      | some r' =>
        rw [hcont] at h
        simp only [Option.map_some'] at h
        obtain rfl := Option.some.inj h
        rcases List.mem_cons.mp hnv with h | h
        · exact Or.inl (by rw [h])
        · exact Or.inr (hc [] r' hcont nv h)
  | cons x s ih =>
    intro acc r h nv hnv
    by_cases hx : x = '/'
    · subst hx
      simp only [matchGroup, if_pos rfl] at h
      by_cases hacc : acc.isEmpty
      · rw [if_pos hacc] at h
        cases h
      · rw [if_neg hacc] at h
        cases hcont : cont ('/' :: s) with
        | none => rw [hcont] at h; simp at h
        | some r' =>
          rw [hcont] at h
          simp only [Option.map_some'] at h
          obtain rfl := Option.some.inj h
          rcases List.mem_cons.mp hnv with h | h
          · exact Or.inl (by rw [h])
          · exact Or.inr (hc _ r' hcont nv h)
    · simp only [matchGroup, if_neg hx] at h
      cases hm : matchGroup cont n (x :: acc) s with
      | some r'' =>
        rw [hm] at h
        obtain rfl := Option.some.inj h
        exact ih (x :: acc) r'' hm nv hnv
      | none =>
        rw [hm] at h
        by_cases hacc : acc.isEmpty
        · rw [if_pos hacc] at h
          cases h
        · rw [if_neg hacc] at h
          cases hcont : cont (x :: s) with
          | none => rw [hcont] at h; simp at h
          | some r' =>
            rw [hcont] at h
            simp only [Option.map_some'] at h
            obtain rfl := Option.some.inj h
            rcases List.mem_cons.mp hnv with h | h
            · exact Or.inl (by rw [h])
            · exact Or.inr (hc _ r' hcont nv h)

theorem matchFrom_caps :
    ∀ (pat : List RElem) (s : List Char) (r : MatchRes),
      matchFrom pat s = some r → ∀ nv ∈ r.1, nv.1 ∈ groupNames pat := by
  intro pat
  induction pat with
  | nil =>
    intro s r h nv hnv
    simp only [matchFrom] at h
    cases h
    simp at hnv
  | cons e pat ih =>
    intro s r h nv hnv
    cases e with
    | lit c =>
      cases s with
      | nil => simp [matchFrom] at h
      | cons x s' =>
        by_cases hx : x = c
        · simp only [matchFrom, if_pos hx] at h
          exact ih s' r h nv hnv
        · simp [matchFrom, hx] at h
    | dot =>
      cases s with
      | nil => simp [matchFrom] at h
      | cons x s' =>
        by_cases hx : x = '\n'
        · simp [matchFrom, hx] at h
        · simp only [matchFrom, if_neg hx] at h
          exact ih s' r h nv hnv
    | group n =>
      simp only [matchFrom] at h
      have := matchGroup_caps (matchFrom pat) n (· ∈ groupNames pat)
        (fun t r' ht nv' hnv' => ih t r' ht nv' hnv') s [] r h nv hnv
      simpa [groupNames] using this

theorem findFrom_caps (pat : List RElem) :
    ∀ (s : List Char) (caps : List (String × String)),
      findFrom pat s = some caps → ∀ nv ∈ caps, nv.1 ∈ groupNames pat := by
  intro s
  induction s with
  | nil =>
    intro caps h nv hnv
    cases hm : matchFrom pat [] with
    | some r =>
      simp only [findFrom, hm] at h
      cases h
      exact matchFrom_caps pat [] r hm nv hnv
    | none => simp [findFrom, hm] at h
  | cons x s' ih =>
    intro caps h nv hnv
    cases hm : matchFrom pat (x :: s') with
    | some r =>
      simp only [findFrom, hm] at h
      cases h
      exact matchFrom_caps pat (x :: s') r hm nv hnv
    | none =>
      simp only [findFrom, hm] at h
      exact ih caps h nv hnv

/-! ## Helper lemmas: the template compiler on plain characters -/

/-- Characters the compiler turns into themselves as literal pattern
elements: not a placeholder marker, not `.`, not a metacharacter. -/
def plainLitChar (c : Char) : Bool :=
  !(isRegexSpecial c) && !(c = ':') && !(c = '.')

theorem isWordChar_ne_slash (c : Char) (h : isWordChar c = true) : c ≠ '/' := by
  intro hc
  subst hc
  have : isWordChar '/' = false := rfl
  rw [this] at h
  cases h

theorem compileAux_lits (p rest : List Char)
    (hp : ∀ c ∈ p, plainLitChar c = true) :
    compileAux false [] (p ++ rest) =
      (compileAux false [] rest).map (fun q => p.map RElem.lit ++ q) := by
  induction p with
  | nil =>
    cases h : compileAux false [] rest <;> simp [h, Except.map]
  | cons c p ih =>
    have hc := hp c (by simp)
    simp only [plainLitChar, Bool.and_eq_true, Bool.not_eq_true',
      decide_eq_false_iff_not] at hc
    obtain ⟨⟨hspec, hcolon⟩, hdot⟩ := hc
    rw [List.cons_append]
    simp only [compileAux, if_neg hcolon, if_neg hdot, hspec,
      Bool.false_eq_true, if_false]
    rw [ih (fun d hd => hp d (by simp [hd]))]
    cases h : compileAux false [] rest <;> simp [Except.map]

theorem compileAux_name (n : List Char) (hn : ∀ c ∈ n, c ≠ '/') :
    ∀ (acc s : List Char),
      compileAux true acc (n ++ s) = compileAux true (n.reverse ++ acc) s := by
  induction n with
  | nil => intro acc s; simp
  | cons c n ih =>
    intro acc s
    have hc : c ≠ '/' := hn c (by simp)
    rw [List.cons_append]
    simp only [compileAux, if_neg hc]
    rw [ih (fun d hd => hn d (by simp [hd])) (c :: acc)]
    simp [List.append_assoc]

theorem groupNames_append (u v : List RElem) :
    groupNames (u ++ v) = groupNames u ++ groupNames v := by
  induction u with
  | nil => rfl
  | cons e u ih => cases e <;> simp [groupNames, ih]

theorem groupNames_lits (p : List Char) :
    groupNames (p.map RElem.lit) = [] := by
  induction p with
  | nil => rfl
  | cons c p ih => simpa [groupNames] using ih

theorem slashLits_append (u v : List RElem) :
    slashLits (u ++ v) = slashLits u + slashLits v := by
  induction u with
  | nil => simp [slashLits]
  | cons e u ih => cases e <;> simp [slashLits, ih, Nat.add_assoc]

theorem slashLits_lits_noslash (p : List Char) (hp : ∀ c ∈ p, c ≠ '/') :
    slashLits (p.map RElem.lit) = 0 := by
  induction p with
  | nil => rfl
  | cons c p ih =>
    have hc : c ≠ '/' := hp c (by simp)
    simp only [List.map_cons, slashLits, if_neg hc, Nat.zero_add]
    exact ih (fun d hd => hp d (by simp [hd]))

theorem countSlash_append (u v : List Char) :
    countSlash (u ++ v) = countSlash u + countSlash v := by
  induction u with
  | nil => simp [countSlash]
  | cons c u ih =>
    simp only [List.cons_append, countSlash, List.append_eq, ih]
    omega

theorem countSlash_noslash (p : List Char) (hp : ∀ c ∈ p, c ≠ '/') :
    countSlash p = 0 := by
  induction p with
  | nil => rfl
  | cons c p ih =>
    have hc : c ≠ '/' := hp c (by simp)
    simp only [countSlash, if_neg hc, Nat.zero_add]
    exact ih (fun d hd => hp d (by simp [hd]))

/-! ## Helper lemmas: response writing -/

theorem headerValues_headerSet (h : Header) (k v : String) :
    headerValues (headerSet h k v) k = some [v] :=
  lookup_setAssoc_self h (canonicalMIMEHeaderKey k) [v]

theorem copyOps_mem (l : List (String × String)) :
    ∀ op ∈ l.foldr
      (fun kv ops =>
        if kv.1 = "content-length" then ops
        else WriterOp.addHeader kv.1 kv.2 :: ops) [],
      ∃ k v, (k, v) ∈ l ∧ k ≠ "content-length" ∧ op = .addHeader k v := by
  induction l with
  | nil => intro op hop; simp at hop
  | cons kv t ih =>
    intro op hop
    rw [List.foldr_cons] at hop
    by_cases hk : kv.1 = "content-length"
    · rw [if_pos hk] at hop
      obtain ⟨k, v, hkv, hne, rfl⟩ := ih op hop
      exact ⟨k, v, List.mem_cons_of_mem _ hkv, hne, rfl⟩
    · rw [if_neg hk] at hop
      rcases List.mem_cons.mp hop with rfl | hop
      · exact ⟨kv.1, kv.2, by simp, hk, rfl⟩
      · obtain ⟨k, v, hkv, hne, rfl⟩ := ih op hop
        exact ⟨k, v, List.mem_cons_of_mem _ hkv, hne, rfl⟩

theorem foldl_insert_all_unnamed (caps : List (String × String))
    (hcaps : ∀ nv ∈ caps, nv.1 = "") :
    ∀ m, caps.foldl
      (fun m nv => if nv.1 = "" then m else insertStr m nv.1 nv.2) m = m := by
  induction caps with
  | nil => intro m; rfl
  | cons nv caps ih =>
    intro m
    rw [List.foldl_cons, if_pos (hcaps nv (by simp))]
    exact ih (fun nv' h => hcaps nv' (by simp [h])) m

/-! ## Claim theorems -/

/-- C3: for every mapping from keys to ordered sequences of string values
and every key present in it, the normalised single-valued mapping maps that
key to the last element of that key's sequence, or to the empty string when
the sequence is empty. -/
theorem claim_normalizer_last_value_wins
    (m : List (String × List String)) (k : String) (v : List String)
    (h : m.lookup k = some v) :
    (v = [] → (multiValueMapToSingleValueMap m).lookup k = some "") ∧
    ∀ hv : v ≠ [], (multiValueMapToSingleValueMap m).lookup k =
      some (v.getLast hv) := by
  constructor
  · intro hv
    subst hv
    simpa using lookup_multiValueMapToSingleValueMap m k [] h
  · intro hv
    have hl := lookup_multiValueMapToSingleValueMap m k v h
    rwa [List.getLast?_eq_getLast v hv, Option.getD_some] at hl

/-- Witness for C3: a key with two values normalises to the second, a key
with no values normalises to the empty string. -/
theorem claim_normalizer_last_value_wins_witness :
    (multiValueMapToSingleValueMap [("a", ["1", "2"]), ("b", [])]).lookup "a" =
      some "2" ∧
    (multiValueMapToSingleValueMap [("a", ["1", "2"]), ("b", [])]).lookup "b" =
      some "" := by
  constructor
  · exact (claim_normalizer_last_value_wins [("a", ["1", "2"]), ("b", [])]
      "a" ["1", "2"] rfl).2 (by simp)
  · exact (claim_normalizer_last_value_wins [("a", ["1", "2"]), ("b", [])]
      "b" [] rfl).1 rfl

/-- C8: the event built by the request translator satisfies the invariant
that its single-valued header map equals the last-value-wins normalisation
of its multi-valued header map, and its single-valued query map equals the
normalisation of its multi-valued query map; both are computed once at
construction (the embedding is pure, so no later mutation exists), and
pointwise every key holds the last value of its original sequence. -/
theorem claim_event_normalization_invariant
    (body : String) (r : HttpRequest) (pp : List (String × String)) :
    (buildEvent body r pp).Headers =
      multiValueMapToSingleValueMap (buildEvent body r pp).MultiValueHeaders ∧
    (buildEvent body r pp).QueryStringParameters =
      multiValueMapToSingleValueMap
        (buildEvent body r pp).MultiValueQueryStringParameters ∧
    (∀ k v, (buildEvent body r pp).MultiValueHeaders.lookup k = some v →
      (buildEvent body r pp).Headers.lookup k = some (v.getLast?.getD "")) ∧
    (∀ k v,
      (buildEvent body r pp).MultiValueQueryStringParameters.lookup k = some v →
      (buildEvent body r pp).QueryStringParameters.lookup k =
        some (v.getLast?.getD "")) :=
  ⟨rfl, rfl,
   fun k v h => lookup_multiValueMapToSingleValueMap r.headers k v h,
   fun k v h => lookup_multiValueMapToSingleValueMap r.query k v h⟩

/-- Witness for C8 at a concrete request: the built event's single-valued
header map holds the last value of the multi-valued one. -/
theorem claim_event_normalization_invariant_witness :
    (buildEvent "" ⟨.ok "", "GET", "/", [("k", ["a", "b"])], []⟩ []).Headers.lookup
      "k" = some "b" := by
  exact (claim_event_normalization_invariant ""
    ⟨.ok "", "GET", "/", [("k", ["a", "b"])], []⟩ []).2.2.1 "k" ["a", "b"] rfl

/-- C1 is refuted by the code: the header-copy filter compares the result
header name against the exact lowercase string `"content-length"`, so a
result whose header map holds the key `"Content-Length"` has that header
copied onto the response (stored under its canonical MIME key), and the
response then does contain a header whose name case-insensitively equals
`content-length`.  The final header map at this failing input is shown in
full; the CORS half of the claim does hold here. -/
theorem claim_content_length_filter_is_case_sensitive :
    containsKeyCI
      (runTrace (writeResponse ⟨"", [("Content-Length", "999")], 200⟩)).headers
      "content-length" = true ∧
    (runTrace (writeResponse ⟨"", [("Content-Length", "999")], 200⟩)).headers =
      [("Content-Length", ["999"]), ("Access-Control-Allow-Origin", ["*"])] := by
  exact ⟨rfl, rfl⟩

/-- C4 counterexample: the empty route template compiles to the empty
pattern, and that pattern does match the non-empty path `/a` — Go's
unanchored search finds the empty match inside it — so the matcher does
not match only the empty path string. -/
theorem claim_empty_template_counterexample :
    pathPatternToPathRegex "" = .ok [] ∧
    (findFrom [] "/a".data).isSome = true :=
  ⟨rfl, rfl⟩

/-- C4 (amended): compiling the empty route template succeeds and yields
the empty pattern; because matching is unanchored, the compiled pattern
finds a match — the empty substring, with no captures — in every path,
empty or not, and parameter extraction yields the empty mapping for every
path. -/
theorem claim_empty_template_matches_everywhere (s : List Char) :
    pathPatternToPathRegex "" = .ok [] ∧
    findFrom [] s = some [] ∧
    extractPathParameters s [] = [] := by
  refine ⟨rfl, ?_, ?_⟩
  · cases s <;> rfl
  · cases s <;> rfl

/-- C5 counterexample: the template `/a.b` compiles with `.` kept as the
regexp any-character metacharacter, not as a literal, and the compiled
pattern matches the path `/aXb`, which does not contain the character `.`
— so template characters are not escaped or treated literally. -/
theorem claim_template_escaping_counterexample :
    pathPatternToPathRegex "/a.b" =
      .ok [.lit '/', .lit 'a', .dot, .lit 'b'] ∧
    (findFrom [.lit '/', .lit 'a', .dot, .lit 'b'] "/aXb".data).isSome = true ∧
    "/aXb".data.contains '.' = false :=
  ⟨rfl, rfl, rfl⟩

/-- C5 (amended): each `:identifier` token becomes a named capture group
matching one or more non-`/` characters, but every other template
character is copied into the pattern source verbatim, without escaping, so
regexp metacharacters keep their special meaning: the `.` of the template
`/a.b` matches any single character other than newline. -/
theorem claim_template_metachars_unescaped (ch : Char) (h : ch ≠ '\n') :
    pathPatternToPathRegex "/a.b" =
      .ok [.lit '/', .lit 'a', .dot, .lit 'b'] ∧
    (findFrom [.lit '/', .lit 'a', .dot, .lit 'b'] ['/', 'a', ch, 'b']).isSome =
      true := by
  refine ⟨rfl, ?_⟩
  have hm : matchFrom [.lit '/', .lit 'a', .dot, .lit 'b'] ['/', 'a', ch, 'b'] =
      some ([], []) := by
    simp [matchFrom, h]
  simp [findFrom, hm]

/-- Witness for the amended C5 at the concrete character `X`. -/
theorem claim_template_metachars_unescaped_witness :
    pathPatternToPathRegex "/a.b" =
      .ok [.lit '/', .lit 'a', .dot, .lit 'b'] ∧
    (findFrom [.lit '/', .lit 'a', .dot, .lit 'b'] ['/', 'a', 'X', 'b']).isSome =
      true :=
  claim_template_metachars_unescaped 'X' (by decide)

/-- C9: the response translator emits, in this order: the header-copy
operations (all of them `Add`s of result headers other than the exact key
`content-length`), then the CORS `Set` override, then the status write,
then the verbatim body write; because the `Set` comes after the copies,
the final response always carries `Access-Control-Allow-Origin: *`. -/
theorem claim_response_write_order (response : APIGatewayProxyResponse) :
    (∃ copyOps : List WriterOp,
      writeResponse response =
        copyOps ++
          [.setHeader "Access-Control-Allow-Origin" "*",
           .writeStatus response.StatusCode,
           .writeBody response.Body] ∧
      ∀ op ∈ copyOps, ∃ k v, (k, v) ∈ response.Headers ∧
        k ≠ "content-length" ∧ op = .addHeader k v) ∧
    headerValues (runTrace (writeResponse response)).headers
      "Access-Control-Allow-Origin" = some ["*"] := by
  constructor
  · exact ⟨_, rfl, copyOps_mem response.Headers⟩
  · rw [writeResponse, runTrace_append]
    simp only [List.foldl_cons, List.foldl_nil]
    rw [headers_applyOp_writeBody, headers_applyOp_writeStatus]
    exact headerValues_headerSet _ _ _

/-- Witness for C9 at a concrete result that tries to override CORS: the
final response still carries the wildcard value. -/
theorem claim_response_write_order_witness :
    headerValues
      (runTrace (writeResponse
        ⟨"ok", [("Access-Control-Allow-Origin", "evil")], 200⟩)).headers
      "Access-Control-Allow-Origin" = some ["*"] :=
  (claim_response_write_order
    ⟨"ok", [("Access-Control-Allow-Origin", "evil")], 200⟩).2

/-- C2: a body-read failure, a template-compilation failure or an event
marshal failure each produce exactly the `handleError` trace without
`Invoke` ever being called; a gateway failure or a result-unmarshal
failure also produce exactly the `handleError` trace (after `Invoke`), so
no normal header, status or body operation is performed; the error trace
always carries the 4xx status 400 and contains no header-copy `Add`. -/
theorem claim_failures_abort_translation
    (marshal : APIGatewayProxyRequest → Except String String)
    (invoke : String → Except String String)
    (unmarshal : String → Except String APIGatewayProxyResponse)
    (route : String) (r : HttpRequest) :
    (∀ e, r.bodyResult = .error e →
      invokeLambda marshal invoke unmarshal route r = ⟨handleError e, false⟩) ∧
    (∀ body e, r.bodyResult = .ok body →
      pathPatternToPathRegex route = .error e →
      invokeLambda marshal invoke unmarshal route r = ⟨handleError e, false⟩) ∧
    (∀ body pat e, r.bodyResult = .ok body →
      pathPatternToPathRegex route = .ok pat →
      marshal (buildEvent body r (extractPathParameters r.path.data pat)) =
        .error e →
      invokeLambda marshal invoke unmarshal route r = ⟨handleError e, false⟩) ∧
    (∀ body pat payload e, r.bodyResult = .ok body →
      pathPatternToPathRegex route = .ok pat →
      marshal (buildEvent body r (extractPathParameters r.path.data pat)) =
        .ok payload →
      invoke payload = .error e →
      invokeLambda marshal invoke unmarshal route r = ⟨handleError e, true⟩) ∧
    (∀ body pat payload resultPayload e, r.bodyResult = .ok body →
      pathPatternToPathRegex route = .ok pat →
      marshal (buildEvent body r (extractPathParameters r.path.data pat)) =
        .ok payload →
      invoke payload = .ok resultPayload →
      unmarshal resultPayload = .error e →
      invokeLambda marshal invoke unmarshal route r = ⟨handleError e, true⟩) ∧
    (∀ e, (runTrace (handleError e)).status = some 400 ∧
      ∀ op ∈ handleError e, ∀ k v, op ≠ .addHeader k v) := by
  refine ⟨?_, ?_, ?_, ?_, ?_, ?_⟩
  · intro e h1
    simp [invokeLambda, h1]
  · intro body e h1 h2
    simp [invokeLambda, h1, h2]
  · intro body pat e h1 h2 h3
    simp [invokeLambda, h1, h2, h3]
  · intro body pat payload e h1 h2 h3 h4
    simp [invokeLambda, h1, h2, h3, h4]
  · intro body pat payload resultPayload e h1 h2 h3 h4 h5
    simp [invokeLambda, h1, h2, h3, h4, h5]
  · intro e
    refine ⟨rfl, ?_⟩
    intro op hop k v
    simp only [handleError, List.mem_cons, List.not_mem_nil, or_false] at hop
    rcases hop with rfl | rfl | rfl | rfl | rfl <;> simp

/-- Witness for C2: a gateway failure at a concrete request — the outcome
is exactly the error trace with the gateway's message, after `Invoke`. -/
theorem claim_failures_abort_translation_witness :
    invokeLambda (fun _ => .ok "payload") (fun _ => .error "io failure")
      (fun _ => .ok ⟨"", [], 200⟩) "" ⟨.ok "", "GET", "/", [], []⟩ =
      ⟨handleError "io failure", true⟩ :=
  (claim_failures_abort_translation (fun _ => .ok "payload")
    (fun _ => .error "io failure") (fun _ => .ok ⟨"", [], 200⟩) ""
    ⟨.ok "", "GET", "/", [], []⟩).2.2.2.1 "" [] "payload" "io failure"
    rfl rfl rfl rfl

/-- C10: every failure branch writes status exactly 400 with plain-text
body `"Error: <message>\n"` — the error path is the single `handleError`
trace, whose replay always has status 400 — and every handler outcome is
either such an error trace or the normal `writeResponse` trace, so no
failure kind is distinguished by a different status code. -/
theorem claim_errors_are_bad_request
    (marshal : APIGatewayProxyRequest → Except String String)
    (invoke : String → Except String String)
    (unmarshal : String → Except String APIGatewayProxyResponse)
    (route : String) (r : HttpRequest) :
    (∀ e, (runTrace (handleError e)).status = some 400 ∧
      (runTrace (handleError e)).body = "Error: " ++ e ++ "\n") ∧
    ((∃ e,
        (invokeLambda marshal invoke unmarshal route r).trace = handleError e) ∨
      ∃ response,
        (invokeLambda marshal invoke unmarshal route r).trace =
          writeResponse response) := by
  constructor
  · intro e
    exact ⟨rfl, rfl⟩
  · cases hb : r.bodyResult with
    | error e => exact Or.inl ⟨e, by simp [invokeLambda, hb]⟩
    | ok body =>
      cases hc : pathPatternToPathRegex route with
      | error e => exact Or.inl ⟨e, by simp [invokeLambda, hb, hc]⟩
      | ok pat =>
        cases hm : marshal
            (buildEvent body r (extractPathParameters r.path.data pat)) with
        | error e => exact Or.inl ⟨e, by simp [invokeLambda, hb, hc, hm]⟩
        | ok payload =>
          cases hi : invoke payload with
          | error e =>
            exact Or.inl ⟨e, by simp [invokeLambda, hb, hc, hm, hi]⟩
          | ok resultPayload =>
            cases hu : unmarshal resultPayload with
            | error e =>
              exact Or.inl ⟨e, by simp [invokeLambda, hb, hc, hm, hi, hu]⟩
            | ok response =>
              exact Or.inr
                ⟨response, by simp [invokeLambda, hb, hc, hm, hi, hu]⟩

/-- Witness for C10: the error trace of a concrete message replays to
status 400 and the expected body. -/
theorem claim_errors_are_bad_request_witness :
    (runTrace (handleError "boom")).status = some 400 ∧
    (runTrace (handleError "boom")).body = "Error: " ++ "boom" ++ "\n" :=
  (claim_errors_are_bad_request (fun _ => .ok "") (fun _ => .ok "")
    (fun _ => .ok ⟨"", [], 200⟩) "" ⟨.ok "", "GET", "/", [], []⟩).1 "boom"

/-- C7: the extractor returns the empty mapping — not a failure — when the
path does not match, and the empty mapping when the pattern has no named
group, match or no match; extraction is total, so a request whose other
steps succeed is translated and invoked regardless of the extraction
result. -/
theorem claim_extraction_best_effort (path : List Char) (pat : List RElem) :
    (findFrom pat path = none → extractPathParameters path pat = []) ∧
    ((∀ nm ∈ groupNames pat, nm = "") →
      extractPathParameters path pat = []) ∧
    (∀ (marshal : APIGatewayProxyRequest → Except String String)
      (invoke : String → Except String String)
      (unmarshal : String → Except String APIGatewayProxyResponse)
      (route : String) (r : HttpRequest) (body payload resultPayload : String)
      (response : APIGatewayProxyResponse),
      r.bodyResult = .ok body →
      pathPatternToPathRegex route = .ok pat →
      marshal (buildEvent body r (extractPathParameters r.path.data pat)) =
        .ok payload →
      invoke payload = .ok resultPayload →
      unmarshal resultPayload = .ok response →
      invokeLambda marshal invoke unmarshal route r =
        ⟨writeResponse response, true⟩) := by
  refine ⟨?_, ?_, ?_⟩
  · intro h
    simp [extractPathParameters, h]
  · intro h
    cases hf : findFrom pat path with
    | none => simp [extractPathParameters, hf]
    | some caps =>
      simp only [extractPathParameters, hf]
      exact foldl_insert_all_unnamed caps
        (fun nv hnv => h nv.1 (findFrom_caps pat path caps hf nv hnv)) []
  · intro marshal invoke unmarshal route r body payload resultPayload response
      h1 h2 h3 h4 h5
    simp [invokeLambda, h1, h2, h3, h4, h5]

/-- Witness for C7: a pattern the path `ab` does not match extracts the
empty mapping. -/
theorem claim_extraction_best_effort_witness :
    extractPathParameters "ab".data [.lit 'x'] = [] :=
  (claim_extraction_best_effort "ab".data [.lit 'x']).1 rfl

/-! ## Helper lemmas: compiling and matching a two-placeholder template -/

/-- Compiling the route template `/a/:x/b/:y` (ordinary literal segments,
word-character placeholder names) yields literal elements around two named
capture groups. -/
theorem compile_route_template (a b x y : List Char)
    (ha : ∀ ch ∈ a, plainLitChar ch = true)
    (hb : ∀ ch ∈ b, plainLitChar ch = true)
    (hx : x ≠ []) (hxw : ∀ ch ∈ x, isWordChar ch = true)
    (hy : y ≠ []) (hyw : ∀ ch ∈ y, isWordChar ch = true)
    (hxy : x ≠ y) :
    pathPatternToPathRegex
      (String.mk ('/' :: a ++ '/' :: ':' :: x ++ '/' :: b ++ '/' :: ':' :: y)) =
      .ok (('/' :: a ++ ['/']).map RElem.lit ++
        (RElem.group (String.mk x) :: RElem.lit '/' ::
          (b.map RElem.lit ++ [RElem.lit '/', RElem.group (String.mk y)]))) := by
  have hxs : ∀ ch ∈ x, ch ≠ '/' := fun ch hch => isWordChar_ne_slash ch (hxw ch hch)
  have hys : ∀ ch ∈ y, ch ≠ '/' := fun ch hch => isWordChar_ne_slash ch (hyw ch hch)
  have hnxe : ¬ x.reverse.isEmpty = true := by simp [List.isEmpty_iff, hx]
  have hnye : ¬ y.reverse.isEmpty = true := by simp [List.isEmpty_iff, hy]
  have hxa : x.reverse.all isWordChar = true :=
    List.all_eq_true.mpr fun c hc => hxw c (List.mem_reverse.mp hc)
  have hya : y.reverse.all isWordChar = true :=
    List.all_eq_true.mpr fun c hc => hyw c (List.mem_reverse.mp hc)
  have e1 : compileAux true [] y = .ok [RElem.group (String.mk y)] := by
    have h := compileAux_name y hys [] []
    rw [List.append_nil] at h
    rw [h, List.append_nil]
    simp only [compileAux]
    rw [if_neg hnye, if_pos hya, List.reverse_reverse]
  have e2 : compileAux false [] (':' :: y) = .ok [RElem.group (String.mk y)] := by
    simp only [compileAux]
    simpa using e1
  have e3 : compileAux false [] (b ++ '/' :: ':' :: y) =
      .ok (b.map RElem.lit ++ [RElem.lit '/', RElem.group (String.mk y)]) := by
    have hp₂ : ∀ ch ∈ b ++ ['/'], plainLitChar ch = true := by
      intro ch hch
      rcases List.mem_append.mp hch with h | h
      · exact hb ch h
      · rw [List.mem_singleton.mp h]; decide
    have heq : b ++ '/' :: ':' :: y = (b ++ ['/']) ++ ':' :: y := by simp
    rw [heq, compileAux_lits (b ++ ['/']) (':' :: y) hp₂, e2]
    simp [Except.map]
  have e4 : compileAux true x.reverse ('/' :: (b ++ '/' :: ':' :: y)) =
      .ok (RElem.group (String.mk x) :: RElem.lit '/' ::
        (b.map RElem.lit ++ [RElem.lit '/', RElem.group (String.mk y)])) := by
    simp only [compileAux, if_true]
    rw [if_neg hnxe, if_pos hxa, e3, List.reverse_reverse]
    rfl
  have e5 : compileAux false []
      (':' :: (x ++ '/' :: (b ++ '/' :: ':' :: y))) =
      .ok (RElem.group (String.mk x) :: RElem.lit '/' ::
        (b.map RElem.lit ++ [RElem.lit '/', RElem.group (String.mk y)])) := by
    simp only [compileAux, if_true]
    rw [compileAux_name x hxs [] ('/' :: (b ++ '/' :: ':' :: y)),
      List.append_nil]
    exact e4
  have hp₁ : ∀ ch ∈ '/' :: a ++ ['/'], plainLitChar ch = true := by
    intro ch hch
    rcases List.mem_cons.mp hch with rfl | h
    · decide
    · rcases List.mem_append.mp h with h | h
      · exact ha ch h
      · rw [List.mem_singleton.mp h]; decide
  have e7 : compileAux false []
      ('/' :: a ++ '/' :: ':' :: x ++ '/' :: b ++ '/' :: ':' :: y) =
      .ok (('/' :: a ++ ['/']).map RElem.lit ++
        (RElem.group (String.mk x) :: RElem.lit '/' ::
          (b.map RElem.lit ++ [RElem.lit '/', RElem.group (String.mk y)]))) := by
    have heq : '/' :: a ++ '/' :: ':' :: x ++ '/' :: b ++ '/' :: ':' :: y =
        ('/' :: a ++ ['/']) ++ (':' :: (x ++ '/' :: (b ++ '/' :: ':' :: y))) := by
      simp
    rw [heq, compileAux_lits ('/' :: a ++ ['/']) _ hp₁, e5]
    rfl
  have hmk : String.mk x ≠ String.mk y := by
    intro hh
    exact hxy (congrArg String.data hh)
  have hgn : groupNames (('/' :: a ++ ['/']).map RElem.lit ++
      (RElem.group (String.mk x) :: RElem.lit '/' ::
        (b.map RElem.lit ++ [RElem.lit '/', RElem.group (String.mk y)]))) =
      [String.mk x, String.mk y] := by
    rw [groupNames_append, groupNames_lits]
    simp only [groupNames, List.nil_append]
    rw [groupNames_append, groupNames_lits]
    rfl
  have hd : distinctNames [String.mk x, String.mk y] = true := by
    simp [distinctNames, List.contains, hmk, Ne.symm hmk]
  simp only [pathPatternToPathRegex]
  rw [e7]
  simp only [hgn, hd, if_true]

/-- The compiled `/a/:x/b/:y` pattern, matched at the start of the path
`/a/V1/b/V2`, captures exactly `x := V1` and `y := V2`. -/
theorem match_route_template (b x y v1 v2 : List Char)
    (hv1 : v1 ≠ []) (hv1s : ∀ ch ∈ v1, ch ≠ '/')
    (hv2 : v2 ≠ []) (hv2s : ∀ ch ∈ v2, ch ≠ '/') :
    ∀ a : List Char,
      matchFrom (('/' :: a ++ ['/']).map RElem.lit ++
          (RElem.group (String.mk x) :: RElem.lit '/' ::
            (b.map RElem.lit ++ [RElem.lit '/', RElem.group (String.mk y)])))
        ('/' :: (a ++ '/' :: v1 ++ '/' :: b ++ '/' :: v2)) =
        some ([(String.mk x, String.mk v1), (String.mk y, String.mk v2)], []) := by
  intro a
  have step_inner : matchFrom [RElem.group (String.mk y)] v2 =
      some ([(String.mk y, String.mk v2)], []) := by
    have h := matchFrom_group (String.mk y) [] v2 [] ([], [])
      hv2s hv2 (Or.inl rfl) rfl
    simpa using h
  have step_q : matchFrom (RElem.lit '/' ::
      (b.map RElem.lit ++ [RElem.lit '/', RElem.group (String.mk y)]))
      ('/' :: (b ++ '/' :: v2)) =
      some ([(String.mk y, String.mk v2)], []) := by
    have hQ : RElem.lit '/' ::
        (b.map RElem.lit ++ [RElem.lit '/', RElem.group (String.mk y)]) =
        (('/' :: b ++ ['/']).map RElem.lit) ++ [RElem.group (String.mk y)] := by
      simp
    have ht : '/' :: (b ++ '/' :: v2) = ('/' :: b ++ ['/']) ++ v2 := by simp
    rw [hQ, ht, matchFrom_lits]
    exact step_inner
  have step_g : matchFrom (RElem.group (String.mk x) :: RElem.lit '/' ::
      (b.map RElem.lit ++ [RElem.lit '/', RElem.group (String.mk y)]))
      (v1 ++ '/' :: (b ++ '/' :: v2)) =
      some ([(String.mk x, String.mk v1), (String.mk y, String.mk v2)], []) := by
    have h := matchFrom_group (String.mk x)
      (RElem.lit '/' ::
        (b.map RElem.lit ++ [RElem.lit '/', RElem.group (String.mk y)]))
      v1 ('/' :: (b ++ '/' :: v2)) ([(String.mk y, String.mk v2)], [])
      hv1s hv1 (Or.inr ⟨_, rfl⟩) step_q
    simpa using h
  have hpath : '/' :: (a ++ '/' :: v1 ++ '/' :: b ++ '/' :: v2) =
      ('/' :: a ++ ['/']) ++ (v1 ++ '/' :: (b ++ '/' :: v2)) := by simp
  rw [hpath, matchFrom_lits]
  exact step_g

/-- C6: for every route template of the form `/a/:x/b/:y` — literal
segments `a`, `b` of ordinary characters and distinct word-character
placeholder names `x`, `y` — compiling and then extracting against
`/a/V1/b/V2` yields exactly the mapping `{x: V1, y: V2}`, and extracting
against `/a/V1/c` yields the empty mapping (the pattern needs four slashes
but that path has three, so there is no match at any position). -/
theorem claim_route_template_extraction
    (a b x y v1 v2 cs : List Char)
    (ha : ∀ ch ∈ a, plainLitChar ch = true ∧ ch ≠ '/')
    (hb : ∀ ch ∈ b, plainLitChar ch = true ∧ ch ≠ '/')
    (hx : x ≠ []) (hxw : ∀ ch ∈ x, isWordChar ch = true)
    (hy : y ≠ []) (hyw : ∀ ch ∈ y, isWordChar ch = true)
    (hxy : x ≠ y)
    (hv1 : v1 ≠ []) (hv1s : ∀ ch ∈ v1, ch ≠ '/')
    (hv2 : v2 ≠ []) (hv2s : ∀ ch ∈ v2, ch ≠ '/')
    (hcs : ∀ ch ∈ cs, ch ≠ '/') :
    ∃ P, pathPatternToPathRegex
        (String.mk ('/' :: a ++ '/' :: ':' :: x ++ '/' :: b ++ '/' :: ':' :: y)) =
        .ok P ∧
      extractPathParameters ('/' :: (a ++ '/' :: v1 ++ '/' :: b ++ '/' :: v2)) P =
        [(String.mk x, String.mk v1), (String.mk y, String.mk v2)] ∧
      extractPathParameters ('/' :: (a ++ '/' :: v1 ++ '/' :: cs)) P = [] := by
  have hsa : ∀ ch ∈ a, ch ≠ '/' := fun ch hch => (ha ch hch).2
  have hsb : ∀ ch ∈ b, ch ≠ '/' := fun ch hch => (hb ch hch).2
  refine ⟨_, compile_route_template a b x y (fun ch hch => (ha ch hch).1)
    (fun ch hch => (hb ch hch).1) hx hxw hy hyw hxy, ?_, ?_⟩
  · have hfind : findFrom
        (('/' :: a ++ ['/']).map RElem.lit ++
          (RElem.group (String.mk x) :: RElem.lit '/' ::
            (b.map RElem.lit ++ [RElem.lit '/', RElem.group (String.mk y)])))
        ('/' :: (a ++ '/' :: v1 ++ '/' :: b ++ '/' :: v2)) =
        some [(String.mk x, String.mk v1), (String.mk y, String.mk v2)] := by
      simp only [findFrom]
      rw [match_route_template b x y v1 v2 hv1 hv1s hv2 hv2s a]
    have hmx : String.mk x ≠ "" := fun hh => hx (congrArg String.data hh)
    have hmy : String.mk y ≠ "" := fun hh => hy (congrArg String.data hh)
    have hmxy : String.mk x ≠ String.mk y :=
      fun hh => hxy (congrArg String.data hh)
    simp only [extractPathParameters, hfind, List.foldl_cons, List.foldl_nil]
    rw [if_neg hmx, if_neg hmy]
    simp [insertStr, hmxy, Ne.symm hmxy]
  · have hnone : findFrom
        (('/' :: a ++ ['/']).map RElem.lit ++
          (RElem.group (String.mk x) :: RElem.lit '/' ::
            (b.map RElem.lit ++ [RElem.lit '/', RElem.group (String.mk y)])))
        ('/' :: (a ++ '/' :: v1 ++ '/' :: cs)) = none := by
      cases hf : findFrom
          (('/' :: a ++ ['/']).map RElem.lit ++
            (RElem.group (String.mk x) :: RElem.lit '/' ::
              (b.map RElem.lit ++ [RElem.lit '/', RElem.group (String.mk y)])))
          ('/' :: (a ++ '/' :: v1 ++ '/' :: cs)) with
      | none => rfl
      | some caps =>
        exfalso
        have hle := findFrom_slash _ _ caps hf
        have h4 : slashLits
            (('/' :: a ++ ['/']).map RElem.lit ++
              (RElem.group (String.mk x) :: RElem.lit '/' ::
                (b.map RElem.lit ++ [RElem.lit '/', RElem.group (String.mk y)]))) =
            4 := by
          simp [List.map_cons, List.map_append, slashLits_append, slashLits,
            slashLits_lits_noslash a hsa, slashLits_lits_noslash b hsb]
        have h3 : countSlash ('/' :: (a ++ '/' :: v1 ++ '/' :: cs)) = 3 := by
          simp [countSlash, countSlash_append,
            countSlash_noslash a hsa, countSlash_noslash v1 hv1s,
            countSlash_noslash cs hcs]
        rw [h4, h3] at hle
        omega
    simp only [extractPathParameters, hnone]

/-- Witness for C6 at the repository's own template
`/path/:pathid/subpath/:subpathid` and path `/path/12345/subpath/abcde`. -/
theorem claim_route_template_extraction_witness :
    ∃ P, pathPatternToPathRegex
        (String.mk ('/' :: "path".data ++ '/' :: ':' :: "pathid".data ++
          '/' :: "subpath".data ++ '/' :: ':' :: "subpathid".data)) =
        .ok P ∧
      extractPathParameters
        ('/' :: ("path".data ++ '/' :: "12345".data ++ '/' :: "subpath".data ++
          '/' :: "abcde".data)) P =
        [(String.mk "pathid".data, String.mk "12345".data),
         (String.mk "subpathid".data, String.mk "abcde".data)] ∧
      extractPathParameters
        ('/' :: ("path".data ++ '/' :: "12345".data ++ '/' :: "c".data)) P =
        [] :=
  claim_route_template_extraction "path".data "subpath".data "pathid".data
    "subpathid".data "12345".data "abcde".data "c".data
    (by decide) (by decide) (by decide) (by decide) (by decide) (by decide)
    (by decide) (by decide) (by decide) (by decide) (by decide) (by decide)

end HttpLambdaInvoker
